import Mathlib

/-!
Verification of the sentinel repository's detection-decision pipeline
(src/skills/vision_skill.py) and safety-conversation state machine
(src/skills/conversation_skill.py), via a shallow embedding of the two
modules.  Confidences and scores are modelled as rationals; camera capture,
YOLO inference, SQLite persistence and the LLM call are external
collaborators, modelled as oracle parameters or as the explicit in-memory
store they maintain.
-/

/-! ## Detection pipeline: `TemporalFilter` (vision_skill.py, lines 36-53) -/

/-- State of `TemporalFilter`: threshold and window size from `__init__`,
plus the boolean window `self.buffer`. -/
structure TemporalFilter where
  threshold : ℚ
  consecutive : ℕ
  buffer : List Bool
deriving Repr, DecidableEq

/-- `TemporalFilter.update` (vision_skill.py lines 44-49): push
`confidence > self.threshold`, `pop(0)` when the window overflows, and
report true iff the window is full and unanimously true.  Returns the
reported boolean together with the updated filter. -/
def TemporalFilter.update (f : TemporalFilter) (confidence : ℚ) : Bool × TemporalFilter :=
  let buf := f.buffer ++ [decide (confidence > f.threshold)]
  let buf := if buf.length > f.consecutive then buf.tail else buf
  (decide (buf.length = f.consecutive) && buf.all (fun b => b), { f with buffer := buf })

/-- `TemporalFilter.reset` (vision_skill.py lines 51-53). -/
def TemporalFilter.reset (f : TemporalFilter) : TemporalFilter :=
  { f with buffer := [] }

/-- Feed a finite sequence of confidences to the filter in order and collect
the sequence of returned booleans. -/
def runFilter (f : TemporalFilter) : List ℚ → List Bool
  | [] => []
  | x :: xs => (f.update x).1 :: runFilter (f.update x).2 xs

/-- The last `k` elements of a list (proof-side helper). -/
def lastN (k : ℕ) (l : List α) : List α := l.drop (l.length - k)

/-! ## Detection pipeline: raw-tensor decoding (vision_skill.py, lines 162-170)

The onnxruntime branch of `detect_person` iterates over the transposed raw
output `detections` (one row per candidate, `4 + num_classes` entries).  For
each row it takes `np.argmax` over the per-class scores `det[4:]` and keeps
the running maximum of scores whose argmax class is `0` (person). -/

/-- `np.argmax` together with the maximal value: returns the index of the
first occurrence of the maximum, and that maximum; `none` on an empty list. -/
def argmaxPair : List ℚ → Option (ℕ × ℚ)
  | [] => none
  | x :: xs =>
    match argmaxPair xs with
    | none => some (0, x)
    | some (j, m) => if m > x then some (j + 1, m) else some (0, x)

/-- The decoding loop of `detect_person` for the raw-tensor layout
(vision_skill.py lines 163-170): `max_confidence` starts at `0.0` and is
replaced by a candidate's score when its argmax class is `0` and its score
exceeds the running maximum. -/
def decodeRaw (dets : List (List ℚ)) : ℚ :=
  dets.foldl
    (fun acc det =>
      match argmaxPair (det.drop 4) with
      | none => acc
      | some (cid, conf) => if cid = 0 ∧ conf > acc then conf else acc)
    0

/-- The scores of candidates whose predicted (argmax) class is the person
class `0`. -/
def personScores (dets : List (List ℚ)) : List ℚ :=
  dets.filterMap (fun det =>
    match argmaxPair (det.drop 4) with
    | some (0, conf) => some conf
    | _ => none)

/-- Modelled from the spec's words for the comparison in claim C7: "the
maximum score among candidates whose predicted class is the person class,
returning 0.0 when no candidate predicts the person class". -/
def decodeRawSpec (dets : List (List ℚ)) : ℚ :=
  match personScores dets with
  | [] => 0
  | x :: xs => xs.foldl max x

/-! ## `VisionSkill.execute` (vision_skill.py, lines 198-236)

Camera capture and per-image detection are external collaborators; they are
passed as oracle parameters.  `capture` is the outcome of `capture_image`
(a saved path, or an error message), `detect` is the outcome of
`detect_person` on a given path (a confidence, or the error message the
method returns, e.g. "Failed to read image" for an unreadable frame).
Filesystem cleanup and timestamps are outside the model. -/

/-- The JSON-shaped result of `VisionSkill.execute`. -/
structure VisionResult where
  error : Option String
  person_present : Bool
  confidence : ℚ
  image_path : Option String
deriving Repr, DecidableEq

/-- `VisionSkill.execute` (vision_skill.py lines 198-236): capture, then
detect, then temporal filtering.  Both failure paths return early with
`person_present = False` and `confidence = 0.0`, before the temporal filter
is consulted. -/
def visionExecute (f : TemporalFilter) (capture : Except String String)
    (detect : String → Except String ℚ) : VisionResult × TemporalFilter :=
  match capture with
  | Except.error e =>
    ({ error := some e, person_present := false, confidence := 0, image_path := none }, f)
  | Except.ok path =>
    match detect path with
    | Except.error e =>
      ({ error := some e, person_present := false, confidence := 0, image_path := some path }, f)
    | Except.ok conf =>
      let r := f.update conf
      ({ error := none, person_present := r.1, confidence := conf, image_path := some path }, r.2)

/-! ## Conversation data model (conversation_skill.py, lines 30-165) -/

/-- One entry of the fixed question catalog (conversation_skill.py lines
146-165). -/
structure Question where
  id : String
  text : String
  qtype : String
  required : Bool
deriving Repr, DecidableEq

/-- `ConversationSkill.QUESTIONS` (conversation_skill.py lines 146-165). -/
def QUESTIONS : List Question :=
  [ { id := "task_identification", text := "What task are you performing?",
      qtype := "open_ended", required := true },
    { id := "safety_confirmation", text := "Are safety protocols confirmed?",
      qtype := "boolean", required := true },
    { id := "tool_requirements", text := "Do you require tool access?",
      qtype := "conditional", required := false } ]

/-- One persisted row of the `conversations` table, restricted to the fields
the engine reads and writes: role, content and the `question_id` metadata.
Timestamps and embeddings are outside the model; rows are kept in insertion
(rowid) order. -/
structure Turn where
  role : String
  content : String
  questionId : Option String
deriving Repr, DecidableEq

/-- A ghost record of one `update_state` call: which optional arguments were
provided.  Used to state per-call effect claims. -/
structure StateUpdate where
  step : Option ℤ
  question : Option String
  awaiting : Option Bool
  contextPatch : Option (List (String × String))
deriving Repr, DecidableEq

/-- The `agent_state` row for a session (conversation_skill.py lines 56-65,
87-102): `current_step`, `last_question`, `awaiting_reply` and the decoded
`context_json` map.  The context map is modelled as an insertion-ordered
association list with string values (the engine only stores the string
`last_reply`). -/
structure SessionState where
  step : ℤ
  last_question : Option String
  awaiting : Bool
  context : List (String × String)
deriving Repr, DecidableEq

/-- The persistent store of `SentinelMemory` for one session: the appended
turns, the agent state (zero state when no row exists yet), and a ghost log
of `update_state` calls for effect claims. -/
structure Memory where
  turns : List Turn
  state : SessionState
  updates : List StateUpdate
deriving Repr, DecidableEq

/-- Python dict assignment `d[k] = v`: overwrite in place if the key exists,
else append. -/
def dictInsert : List (String × String) → String → String → List (String × String)
  | [], k, v => [(k, v)]
  | (k0, v0) :: d, k, v =>
    if k0 = k then (k, v) :: d else (k0, v0) :: dictInsert d k v

/-- Python `dict.update`: apply the patch entries in order, last write wins
per key. -/
def dictUpdate (d : List (String × String)) (patch : List (String × String)) :
    List (String × String) :=
  patch.foldl (fun d e => dictInsert d e.1 e.2) d

/-- The value the LAST entry of a patch gives to a key, if any
(proof-side helper describing last-write-wins). -/
def lastVal : List (String × String) → String → Option String
  | [], _ => none
  | e :: p, k =>
    match lastVal p k with
    | some v => some v
    | none => if e.1 = k then some e.2 else none

/-- `SentinelMemory.store_interaction` (conversation_skill.py lines 74-85):
append one row to `conversations`.  The embedding blob and the returned
rowid are outside the model. -/
def Memory.store_interaction (m : Memory) (role content : String)
    (qid : Option String) : Memory :=
  { m with turns := m.turns ++ [{ role := role, content := content, questionId := qid }] }

/-- `SentinelMemory.update_state` (conversation_skill.py lines 104-128):
read the current state (zero state when absent), overwrite each provided
field, merge a provided context patch key-by-key, and upsert the row.  The
call is also recorded in the ghost update log. -/
def Memory.update_state (m : Memory) (step : Option ℤ) (question : Option String)
    (awaiting : Option Bool) (context : Option (List (String × String))) : Memory :=
  let st0 := m.state
  let st1 := match step with | some v => { st0 with step := v } | none => st0
  let st2 := match question with | some q => { st1 with last_question := some q } | none => st1
  let st3 := match awaiting with | some a => { st2 with awaiting := a } | none => st2
  let st4 := match context with
    | some p => { st3 with context := dictUpdate st3.context p }
    | none => st3
  { m with
    state := st4,
    updates := m.updates ++ [{ step := step, question := question,
                               awaiting := awaiting, contextPatch := context }] }

/-- `retrieve_context` (conversation_skill.py lines 130-140): the most
recent `limit` turns, most-recent-first. -/
def Memory.retrieve_context (m : Memory) (limit : ℕ) : List Turn :=
  m.turns.reverse.take limit

/-- Python list indexing `l[i]` with negative-index wrap-around; `none`
models an `IndexError`. -/
def pyGet {α : Type} (l : List α) (i : ℤ) : Option α :=
  if 0 ≤ i then l.get? i.toNat
  else if 0 ≤ i + l.length then l.get? (i + l.length).toNat
  else none

/-- Python truthiness of the optional `user_input` string: absent and the
empty string are both falsy. -/
def inputTruthy : Option String → Bool
  | none => false
  | some s => s != ""

/-- Python `str.lower` on the ASCII letters the engine compares. -/
def strLower (s : String) : String := String.mk (s.data.map Char.toLower)

/-- Whether `pat` matches `s` at its start (helper for substring search). -/
def matchesFrom : List Char → List Char → Bool
  | [], _ => true
  | _ :: _, [] => false
  | a :: as, b :: bs => a == b && matchesFrom as bs

/-- Python substring containment `pat in s`. -/
def strContains (s pat : String) : Bool :=
  (List.range (s.data.length + 1)).any (fun i => matchesFrom pat.data (s.data.drop i))

/-- The request shape consumed by `ConversationSkill.execute`
(conversation_skill.py lines 207-213): the optional `user_input` and the
`trigger_conversation` flag.  The session id keys the store and is fixed by
working with a single session's `Memory`. -/
structure ExecCtx where
  user_input : Option String
  trigger_conversation : Bool
deriving Repr, DecidableEq

/-- The JSON-shaped responses of `ConversationSkill.execute`; `error` covers
an exception propagating out to `main`'s handler. -/
inductive ActionResult where
  | idle (message : String)
  | complete (summary : String) (message : String)
  | ask (question : String) (qtype : String) (required : Bool) (step : ℤ) (total : ℕ)
  | error (err : String)
deriving Repr, DecidableEq

/-- Whether a response is a `complete` action. -/
def ActionResult.isComplete : ActionResult → Bool
  | ActionResult.complete _ _ => true
  | _ => false

/-- Whether a response is an `ask` action. -/
def ActionResult.isAsk : ActionResult → Bool
  | ActionResult.ask _ _ _ _ _ => true
  | _ => false

/-- The reply-processing block of `ConversationSkill.execute`
(conversation_skill.py lines 227-244): when a reply is pending and the
input is truthy, store the user turn tagged with the previously asked
question's id, then clear `awaiting`, keep `step`, and merge
`last_reply` into the context.  The `none` branch of the catalog lookup is
unreachable from `execute`, which raises first (see the guard there). -/
def afterReply (m : Memory) (ctx : ExecCtx) : Memory :=
  if m.state.awaiting = true ∧ inputTruthy ctx.user_input = true then
    match pyGet QUESTIONS (m.state.step - 1) with
    | none => m
    | some q =>
      let u := ctx.user_input.getD ""
      (m.store_interaction "user" u (some q.id)).update_state
        (some m.state.step) none (some false) (some [("last_reply", u)])
  else m

/-- `ConversationSkill.execute` (conversation_skill.py lines 207-298).
Steps: idle short-circuit; reply processing (an out-of-range catalog index
there raises before any write, modelled by the `error` guard); completion
check with the summary over the last 10 turns; conditional-question skip
with recursion; otherwise store the question as an assistant turn, set
`awaiting`, advance `step`, and return `ask`. -/
def execute (m : Memory) (ctx : ExecCtx) : ActionResult × Memory :=
  if ctx.trigger_conversation = false ∧ m.state.step = 0 then
    (ActionResult.idle "No conversation active", m)
  else if m.state.awaiting = true ∧ inputTruthy ctx.user_input = true ∧
      pyGet QUESTIONS (m.state.step - 1) = none then
    (ActionResult.error "list index out of range", m)
  else
    let m2 := afterReply m ctx
    if hge : (QUESTIONS.length : ℤ) ≤ m2.state.step then
      (ActionResult.complete
        ("Completed safety check with " ++ toString (m2.retrieve_context 10).length
          ++ " interactions")
        "Conversation completed. Returning to monitoring.", m2)
    else
      match pyGet QUESTIONS m2.state.step with
      | none => (ActionResult.error "list index out of range", m2)
      | some q =>
        if q.qtype = "conditional" ∧
            strContains (strLower ((List.lookup "last_reply" m2.state.context).getD ""))
              "maintenance" = false ∧
            strContains (strLower ((List.lookup "last_reply" m2.state.context).getD ""))
              "tool" = false then
          execute (m2.update_state (some (m2.state.step + 1)) none (some false) none) ctx
        else
          (ActionResult.ask q.text q.qtype q.required (m2.state.step + 1) QUESTIONS.length,
           (m2.store_interaction "assistant" q.text (some q.id)).update_state
             (some (m2.state.step + 1)) (some q.text) (some true) none)
termination_by ((QUESTIONS.length : ℤ) - m.state.step).toNat
decreasing_by
  have hstep : (afterReply m ctx).state.step = m.state.step := by
    unfold afterReply
    split
    · split
      · rfl
      · simp [Memory.update_state, Memory.store_interaction]
    · rfl
  simp only [Memory.update_state]
  rw [hstep] at hge ⊢
  simp only [QUESTIONS, List.length] at hge ⊢
  omega

/-- The zero state: no turns, `step = 0`, not awaiting, empty context
(implicit creation on first read, conversation_skill.py lines 94-95). -/
def memInit : Memory :=
  { turns := [], state := { step := 0, last_question := none, awaiting := false, context := [] },
    updates := [] }

/-- Session stores reachable from the zero state by `execute` calls. -/
inductive Reachable : Memory → Prop
  | init : Reachable memInit
  | step : ∀ {m : Memory} (ctx : ExecCtx), Reachable m → Reachable (execute m ctx).2

/-! ## Concrete stores used by counterexamples and witnesses -/

/-- A first call on a fresh session, triggered by a detection. -/
def ctxT : ExecCtx := { user_input := none, trigger_conversation := true }

/-- The store after the first `execute` on the zero state (question 1 asked). -/
def mAval : Memory :=
  { turns := [Turn.mk "assistant" "What task are you performing?" (some "task_identification")],
    state := { step := 1, last_question := some "What task are you performing?",
               awaiting := true, context := [] },
    updates := [StateUpdate.mk (some 1) (some "What task are you performing?") (some true) none] }

/-- A reply to question 1 that mentions a trigger word. -/
def ctxReply : ExecCtx := { user_input := some "i use tool x", trigger_conversation := true }

/-- The store after answering question 1 with `ctxReply` (question 2 asked,
`last_reply` contains "tool"). -/
def mBval : Memory :=
  { turns := [Turn.mk "assistant" "What task are you performing?" (some "task_identification"),
              Turn.mk "user" "i use tool x" (some "task_identification"),
              Turn.mk "assistant" "Are safety protocols confirmed?" (some "safety_confirmation")],
    state := { step := 2, last_question := some "Are safety protocols confirmed?",
               awaiting := true, context := [("last_reply", "i use tool x")] },
    updates := [StateUpdate.mk (some 1) (some "What task are you performing?") (some true) none,
                StateUpdate.mk (some 1) none (some false) (some [("last_reply", "i use tool x")]),
                StateUpdate.mk (some 2) (some "Are safety protocols confirmed?") (some true) none] }

/-- A generic session at step 2 awaiting a reply (witness input). -/
def mW2 : Memory :=
  { turns := [], state := { step := 2, last_question := none, awaiting := true, context := [] },
    updates := [] }

/-- A generic session at the terminal step (witness input). -/
def mW4 : Memory :=
  { turns := [], state := { step := 3, last_question := none, awaiting := false, context := [] },
    updates := [] }

/-- The engine's invariant on a session store: the step stays inside
`[0, len(catalog)]` and a pending reply implies a question was asked. -/
def EngineInv (m : Memory) : Prop :=
  0 ≤ m.state.step ∧ m.state.step ≤ 3 ∧ (m.state.awaiting = true → 1 ≤ m.state.step)

/-! ## Helper lemmas -/

lemma lookup_dictInsert (d : List (String × String)) (k0 v k : String) :
    List.lookup k (dictInsert d k0 v) = if k = k0 then some v else List.lookup k d := by
  induction d with
  | nil =>
    by_cases h : k = k0
    · subst h; simp [dictInsert, List.lookup]
    · have hb : (k == k0) = false := beq_eq_false_iff_ne.mpr h
      simp [dictInsert, List.lookup, hb, h]
  | cons e d ih =>
    obtain ⟨k1, v1⟩ := e
    by_cases h1 : k1 = k0
    · subst h1
      by_cases h : k = k1
      · subst h; simp [dictInsert, List.lookup]
      · have hb : (k == k1) = false := beq_eq_false_iff_ne.mpr h
        simp [dictInsert, List.lookup, hb, h]
    · by_cases h : k = k1
      · subst h
        have h2 : ¬ k = k0 := fun hh => h1 (by rw [hh])
        simp [dictInsert, h1, List.lookup, h2]
      · have hb : (k == k1) = false := beq_eq_false_iff_ne.mpr h
        simp [dictInsert, h1, List.lookup, hb, ih]

lemma lookup_dictUpdate (p : List (String × String)) :
    ∀ (d : List (String × String)) (k : String),
      List.lookup k (dictUpdate d p) =
        match lastVal p k with
        | some v => some v
        | none => List.lookup k d := by
  induction p with
  | nil => intro d k; simp [dictUpdate, lastVal]
  | cons e p ih =>
    intro d k
    have h0 : dictUpdate d (e :: p) = dictUpdate (dictInsert d e.1 e.2) p := rfl
    rw [h0, ih]
    cases hl : lastVal p k with
    | some v => simp [lastVal, hl]
    | none =>
      simp only [lastVal, hl, lookup_dictInsert]
      by_cases h : k = e.1
      · simp [h]
      · rw [if_neg (fun hh : e.1 = k => h hh.symm), if_neg h]

lemma update_state_step (m : Memory) (v : ℤ) (q : Option String) (a : Option Bool)
    (c : Option (List (String × String))) :
    (m.update_state (some v) q a c).state.step = v := by
  unfold Memory.update_state
  cases q <;> cases a <;> cases c <;> rfl

lemma update_state_turns (m : Memory) (s : Option ℤ) (q : Option String) (a : Option Bool)
    (c : Option (List (String × String))) :
    (m.update_state s q a c).turns = m.turns := by
  unfold Memory.update_state
  cases s <;> cases q <;> cases a <;> cases c <;> rfl

lemma update_state_updates (m : Memory) (s : Option ℤ) (q : Option String) (a : Option Bool)
    (c : Option (List (String × String))) :
    (m.update_state s q a c).updates =
      m.updates ++ [StateUpdate.mk s q a c] := by
  unfold Memory.update_state
  cases s <;> cases q <;> cases a <;> cases c <;> rfl

lemma afterReply_step (m : Memory) (ctx : ExecCtx) :
    (afterReply m ctx).state.step = m.state.step := by
  unfold afterReply
  split
  · split
    · rfl
    · simp [Memory.update_state, Memory.store_interaction]
  · rfl

lemma afterReply_cases (m : Memory) (ctx : ExecCtx) :
    afterReply m ctx = m ∨ (afterReply m ctx).state.awaiting = false := by
  unfold afterReply
  split
  · split
    · exact Or.inl rfl
    · exact Or.inr (by simp [Memory.update_state, Memory.store_interaction])
  · exact Or.inl rfl

lemma afterReply_effects (m : Memory) (ctx : ExecCtx) :
    ∃ dt du, (afterReply m ctx).turns = m.turns ++ dt ∧
      (∀ t ∈ dt, t.role = "user") ∧
      (afterReply m ctx).updates = m.updates ++ du ∧
      (∀ u ∈ du, u.awaiting = some false) := by
  unfold afterReply
  split
  · split
    · exact ⟨[], [], by simp, by simp, by simp, by simp⟩
    · next q heq =>
      refine ⟨[Turn.mk "user" (ctx.user_input.getD "") (some q.id)],
        [StateUpdate.mk (some m.state.step) none (some false)
          (some [("last_reply", ctx.user_input.getD "")])], ?_, ?_, ?_, ?_⟩ <;>
        simp [Memory.update_state, Memory.store_interaction]
  · exact ⟨[], [], by simp, by simp, by simp, by simp⟩

lemma afterReply_falsy (m : Memory) (ctx : ExecCtx)
    (h : inputTruthy ctx.user_input = false) : afterReply m ctx = m := by
  unfold afterReply
  split
  · next hc => rw [h] at hc; simp at hc
  · rfl

lemma afterReply_inv (m : Memory) (ctx : ExecCtx) (h : EngineInv m) :
    EngineInv (afterReply m ctx) := by
  rcases afterReply_cases m ctx with he | ha
  · rw [he]; exact h
  · have hs := afterReply_step m ctx
    exact ⟨hs ▸ h.1, hs ▸ h.2.1, fun hw => absurd hw (by simp [ha])⟩

lemma pyGet_mem {α : Type} {l : List α} {i : ℤ} {x : α} (h : pyGet l i = some x) : x ∈ l := by
  unfold pyGet at h
  split at h
  · exact List.get?_mem h
  · split at h
    · exact List.get?_mem h
    · simp at h

lemma exec_step3 (m : Memory) (ctx : ExecCtx) (h3 : m.state.step = 3) :
    execute m ctx =
      (ActionResult.complete
        ("Completed safety check with "
          ++ toString ((afterReply m ctx).retrieve_context 10).length ++ " interactions")
        "Conversation completed. Returning to monitoring.", afterReply m ctx) := by
  rw [execute.eq_def]
  rw [if_neg (by simp [h3])]
  rw [if_neg ?hpg]
  case hpg =>
    intro hc
    have := hc.2.2
    rw [h3] at this
    simp [pyGet, QUESTIONS] at this
  have hm2 : (afterReply m ctx).state.step = 3 := by rw [afterReply_step, h3]
  rw [dif_pos (by rw [hm2]; simp [QUESTIONS])]

lemma update_state_awaiting (m : Memory) (s : Option ℤ) (q : Option String) (b : Bool)
    (c : Option (List (String × String))) :
    (m.update_state s q (some b) c).state.awaiting = b := by
  unfold Memory.update_state
  cases s <;> cases q <;> cases c <;> rfl

lemma update_state_context_none (m : Memory) (s : Option ℤ) (q : Option String)
    (a : Option Bool) :
    (m.update_state s q a none).state.context = m.state.context := by
  unfold Memory.update_state
  cases s <;> cases q <;> cases a <;> rfl

lemma store_state (m : Memory) (r c : String) (q : Option String) :
    (m.store_interaction r c q).state = m.state := rfl

lemma store_turns (m : Memory) (r c : String) (q : Option String) :
    (m.store_interaction r c q).turns = m.turns ++ [Turn.mk r c q] := rfl

lemma store_updates (m : Memory) (r c : String) (q : Option String) :
    (m.store_interaction r c q).updates = m.updates := rfl

lemma qlen_int : ((QUESTIONS.length : ℕ) : ℤ) = 3 := rfl

lemma exec_inv_aux : ∀ (n : ℕ) (m : Memory) (ctx : ExecCtx),
    ((3 : ℤ) - m.state.step).toNat = n → EngineInv m → EngineInv (execute m ctx).2 := by
  intro n
  induction n using Nat.strong_induction_on with
  | _ n ih =>
    intro m ctx hn hInv
    have ⟨hI1, hI2, hI3⟩ := hInv
    rw [execute.eq_def]
    split
    · exact hInv
    · split
      · exact hInv
      · have hInv2 : EngineInv (afterReply m ctx) := afterReply_inv m ctx hInv
        have hst := afterReply_step m ctx
        dsimp only
        split
        · exact hInv2
        · rename_i hge
          rw [qlen_int, hst] at hge
          split
          · exact hInv2
          · rename_i q heq
            split
            · rename_i hcond
              apply ih ((3 - (m.state.step + 1)).toNat) (by omega) _ ctx
              · rw [update_state_step, hst]
              · refine ⟨?_, ?_, ?_⟩
                · rw [update_state_step, hst]; omega
                · rw [update_state_step, hst]; omega
                · rw [update_state_awaiting]; simp
            · refine ⟨?_, ?_, ?_⟩
              · rw [update_state_step, hst]; omega
              · rw [update_state_step, hst]; omega
              · rw [update_state_awaiting, update_state_step, hst]
                intro
                omega

lemma reach_inv {m : Memory} (h : Reachable m) : EngineInv m := by
  induction h with
  | init => exact ⟨by simp [memInit], by simp [memInit], by simp [memInit]⟩
  | step ctx _ ih => exact exec_inv_aux _ _ ctx rfl ih

lemma exec_falsy : ∀ (n : ℕ) (m : Memory) (ctx : ExecCtx),
    ((3 : ℤ) - m.state.step).toNat = n → inputTruthy ctx.user_input = false →
    execute m ctx = execute m (ExecCtx.mk none ctx.trigger_conversation) := by
  intro n
  induction n using Nat.strong_induction_on with
  | _ n ih =>
    intro m ctx hn hf
    rw [execute.eq_def, execute.eq_def]
    have har : afterReply m ctx = m := afterReply_falsy m ctx hf
    have har2 : afterReply m (ExecCtx.mk none ctx.trigger_conversation) = m :=
      afterReply_falsy _ _ rfl
    dsimp only
    rw [har, har2, hf]
    simp only [inputTruthy]
    split
    · rfl
    · split
      · rfl
      · split
        · rfl
        · rename_i hge
          rw [qlen_int] at hge
          split
          · rfl
          · rename_i q heq
            split
            · exact ih ((3 - (m.state.step + 1)).toNat) (by omega) _ ctx
                (by rw [update_state_step]) hf
            · rfl

lemma lastN_cons_of_le {α : Type} (k : ℕ) (y : α) (l : List α) (h : k ≤ l.length) :
    lastN k (y :: l) = lastN k l := by
  unfold lastN
  have h1 : (y :: l).length - k = (l.length - k) + 1 := by
    simp only [List.length_cons]; omega
  rw [h1, List.drop_succ_cons]

lemma lastN_of_length_le {α : Type} (k : ℕ) (l : List α) (h : l.length ≤ k) :
    lastN k l = l := by
  unfold lastN
  have h1 : l.length - k = 0 := by omega
  rw [h1, List.drop_zero]

lemma lastN_tail {α : Type} (c : ℕ) (l : List α) (h : l.length = c + 1) :
    lastN c l = l.tail := by
  unfold lastN
  rw [h]
  simp [List.drop_one]

lemma lastN_length {α : Type} (k : ℕ) (l : List α) :
    (lastN k l).length = min k l.length := by
  unfold lastN
  rw [List.length_drop]
  omega

lemma lastN_append_left (c : ℕ) (l r : List Bool) (hl : l.length ≤ c + 1) :
    lastN c (lastN c l ++ r) = lastN c (l ++ r) := by
  rcases Nat.lt_or_ge c l.length with h | h
  · have hl1 : l.length = c + 1 := by omega
    rw [lastN_tail c l hl1]
    cases l with
    | nil => simp at hl1
    | cons y l' =>
      rw [List.tail_cons, List.cons_append]
      rw [lastN_cons_of_le]
      rw [List.length_append]
      simp at hl1
      omega
  · rw [lastN_of_length_le c l h]

lemma stepBuf_eq (c : ℕ) (buf : List Bool) (d : Bool) (h : buf.length ≤ c) :
    (if (buf ++ [d]).length > c then (buf ++ [d]).tail else buf ++ [d])
      = lastN c (buf ++ [d]) := by
  rcases Nat.lt_or_ge c (buf ++ [d]).length with hc | hc
  · rw [if_pos hc, lastN_tail]
    simp only [List.length_append, List.length_cons, List.length_nil] at hc ⊢
    omega
  · rw [if_neg (by omega), lastN_of_length_le c _ hc]

lemma runFilter_getD (t : ℚ) (c : ℕ) :
    ∀ (cs : List ℚ) (buf : List Bool) (i : ℕ), buf.length ≤ c → i < cs.length →
    ((runFilter (TemporalFilter.mk t c buf) cs).getD i false = true ↔
      (c ≤ buf.length + i + 1 ∧
        ∀ b ∈ lastN c (buf ++ (cs.take (i + 1)).map (fun x => decide (t < x))), b = true)) := by
  intro cs
  induction cs with
  | nil => intro buf i _ hi; simp at hi
  | cons x cs ih =>
    intro buf i hbuf hi
    simp only [runFilter, TemporalFilter.update]
    dsimp only
    rw [stepBuf_eq c buf (decide (t < x)) hbuf]
    have hnb : (lastN c (buf ++ [decide (t < x)])).length = min c (buf.length + 1) := by
      rw [lastN_length]
      simp
    cases i with
    | zero =>
      rw [List.getD_cons_zero]
      rw [List.take_succ_cons, List.take_zero, List.map_cons, List.map_nil]
      rw [Bool.and_eq_true, decide_eq_true_iff, List.all_eq_true]
      exact and_congr (by omega) Iff.rfl
    | succ i =>
      rw [List.getD_cons_succ]
      have hle : (lastN c (buf ++ [decide (t < x)])).length ≤ c := by
        rw [lastN_length]; exact min_le_left _ _
      have hii : i < cs.length := by simpa using hi
      rw [ih (lastN c (buf ++ [decide (t < x)])) i hle hii]
      rw [lastN_append_left c (buf ++ [decide (t < x)]) _ (by simpa using hbuf)]
      rw [List.append_assoc, List.singleton_append]
      rw [List.take_succ_cons, List.map_cons]
      exact and_congr (by omega) Iff.rfl

lemma lastN_map (k : ℕ) (l : List ℚ) (f : ℚ → Bool) :
    lastN k (l.map f) = (lastN k l).map f := by
  unfold lastN
  rw [List.length_map, ← List.map_drop]

lemma argmaxPair_mem : ∀ {l : List ℚ} {j : ℕ} {v : ℚ}, argmaxPair l = some (j, v) → v ∈ l := by
  intro l
  induction l with
  | nil => intro j v h; simp [argmaxPair] at h
  | cons x xs ih =>
    intro j v h
    simp only [argmaxPair] at h
    cases hm : argmaxPair xs with
    | none =>
      rw [hm] at h
      simp only [Option.some.injEq, Prod.mk.injEq] at h
      obtain ⟨h1, h2⟩ := h
      subst h2
      exact List.mem_cons_self x xs
    | some p =>
      obtain ⟨j', m⟩ := p
      rw [hm] at h
      dsimp only at h
      split at h <;>
      · simp only [Option.some.injEq, Prod.mk.injEq] at h
        obtain ⟨h1, h2⟩ := h
        subst h2
        first
        | exact List.mem_cons_self x xs
        | exact List.mem_cons_of_mem x (ih hm)

lemma decodeRaw_eq_foldl_max :
    ∀ (dets : List (List ℚ)) (a : ℚ),
      dets.foldl (fun acc det =>
        match argmaxPair (det.drop 4) with
        | none => acc
        | some (cid, conf) => if cid = 0 ∧ conf > acc then conf else acc) a
      = (personScores dets).foldl max a := by
  intro dets
  induction dets with
  | nil => intro a; simp [personScores]
  | cons det dets ih =>
    intro a
    rw [List.foldl_cons]
    cases hm : argmaxPair (det.drop 4) with
    | none =>
      simp only [hm]
      rw [ih]
      have h2 : personScores (det :: dets) = personScores dets := by
        simp [personScores, hm]
      rw [h2]
    | some p =>
      obtain ⟨cid, conf⟩ := p
      cases cid with
      | zero =>
        simp only [hm]
        have hps : personScores (det :: dets) = conf :: personScores dets := by
          simp [personScores, hm]
        rw [hps, List.foldl_cons, ih]
        by_cases hca : conf > a
        · simp [hca, max_eq_right (le_of_lt hca)]
        · simp [hca, max_eq_left (not_lt.mp hca)]
      | succ n =>
        simp only [hm]
        have h1 : (if n + 1 = 0 ∧ conf > a then conf else a) = a := by simp
        have h2 : personScores (det :: dets) = personScores dets := by
          simp [personScores, hm]
        rw [h1, ih, h2]

lemma personScores_mem {dets : List (List ℚ)} {s : ℚ} (h : s ∈ personScores dets) :
    ∃ det ∈ dets, s ∈ det.drop 4 := by
  unfold personScores at h
  obtain ⟨det, hdet, hf⟩ := List.mem_filterMap.mp h
  refine ⟨det, hdet, ?_⟩
  cases hm : argmaxPair (det.drop 4) with
  | none => rw [hm] at hf; simp at hf
  | some p =>
    obtain ⟨cid, conf⟩ := p
    rw [hm] at hf
    cases cid with
    | zero =>
      dsimp only at hf
      simp only [Option.some.injEq] at hf
      subst hf
      exact argmaxPair_mem hm
    | succ n =>
      simp at hf

lemma decodeRaw_nonneg_spec (dets : List (List ℚ))
    (h : ∀ det ∈ dets, ∀ x ∈ det.drop 4, 0 ≤ x) :
    decodeRaw dets = decodeRawSpec dets := by
  unfold decodeRaw decodeRawSpec
  rw [decodeRaw_eq_foldl_max]
  cases hps : personScores dets with
  | nil => rfl
  | cons sc ss =>
    rw [List.foldl_cons]
    have hsc : 0 ≤ sc := by
      have hmem : sc ∈ personScores dets := by rw [hps]; exact List.mem_cons_self _ _
      obtain ⟨det, hdet, hin⟩ := personScores_mem hmem
      exact h det hdet sc hin
    rw [max_eq_right hsc]


/-- Claim C2 as amended (corrected): for every session at step 2 with
`awaiting_reply` true, calling `execute` with a NON-EMPTY `user_input` whose
lowercased text contains neither "maintenance" nor "tool" returns action
`complete`, and the only turn appended by the call is the user reply — in
particular no assistant turn for the conditional question `tool_requirements`
is ever stored.  The non-emptiness restriction is forced by
`claim_c2_counterexample`: Python truthiness makes an empty-string input
indistinguishable from no input. -/
theorem claim_c2 (m : Memory) (u : String) (tr : Bool)
    (h2 : m.state.step = 2) (h3 : m.state.awaiting = true) (h4 : u ≠ "")
    (h5 : strContains (strLower u) "maintenance" = false)
    (h6 : strContains (strLower u) "tool" = false) :
    (execute m (ExecCtx.mk (some u) tr)).1.isComplete = true ∧
    (execute m (ExecCtx.mk (some u) tr)).2.turns =
      m.turns ++ [Turn.mk "user" u (some "safety_confirmation")] := by
  obtain ⟨turns, ⟨st, lq, aw, cx⟩, upds⟩ := m
  subst h2
  subst h3
  have htr : inputTruthy (some u) = true := by simp [inputTruthy, h4]
  have hlook : List.lookup "last_reply" (dictUpdate cx [("last_reply", u)]) = some u := by
    rw [lookup_dictUpdate]
    simp [lastVal]
  constructor
  · simp [execute, afterReply, QUESTIONS, pyGet, inputTruthy, Memory.update_state,
      Memory.store_interaction, htr, h4, h5, h6, hlook, ActionResult.isComplete]
  · simp [execute, afterReply, QUESTIONS, pyGet, inputTruthy, Memory.update_state,
      Memory.store_interaction, htr, h4, h5, h6, hlook]

/-- Witness for the amended C2: a concrete step-2 awaiting session answered
with "no" completes without storing the conditional question. -/
theorem claim_c2_witness :
    (mW2.state.step = 2 ∧ mW2.state.awaiting = true ∧ "no" ≠ "" ∧
      strContains (strLower "no") "maintenance" = false ∧
      strContains (strLower "no") "tool" = false) ∧
    ((execute mW2 (ExecCtx.mk (some "no") true)).1.isComplete = true ∧
      (execute mW2 (ExecCtx.mk (some "no") true)).2.turns =
        mW2.turns ++ [Turn.mk "user" "no" (some "safety_confirmation")]) :=
  ⟨⟨rfl, rfl, by decide, by decide, by decide⟩,
   claim_c2 mW2 "no" true rfl rfl (by decide) (by decide) (by decide)⟩

/-- The first `execute` call on the zero state asks question 1 and leaves the
store `mAval`. -/
theorem execA : execute memInit ctxT =
    (ActionResult.ask "What task are you performing?" "open_ended" true 1 3, mAval) := by
  simp [execute, afterReply, memInit, ctxT, mAval, QUESTIONS, pyGet, inputTruthy,
    Memory.update_state, Memory.store_interaction]

/-- Answering question 1 on `mAval` with `ctxReply` asks question 2 and
leaves the store `mBval`. -/
theorem execB : execute mAval ctxReply =
    (ActionResult.ask "Are safety protocols confirmed?" "boolean" true 2 3, mBval) := by
  simp [execute, afterReply, mAval, ctxReply, mBval, QUESTIONS, pyGet, inputTruthy,
    Memory.update_state, Memory.store_interaction, dictUpdate, dictInsert]

/-- Counterexample to claim C2 as stated: the empty string lowercases to a
text containing neither "maintenance" nor "tool", yet on the reachable
session `mBval` (step 2, awaiting, `last_reply` = "i use tool x" from the
answer to question 1), `execute` with `user_input = ""` returns `ask` for
`tool_requirements` — not `complete` — and stores that assistant turn: the
engine treats "" as no reply and evaluates the trigger rule against the old
`last_reply`. -/
theorem claim_c2_counterexample :
    mBval = (execute (execute memInit ctxT).2 ctxReply).2 ∧
    mBval.state.step = 2 ∧ mBval.state.awaiting = true ∧
    strContains (strLower "") "maintenance" = false ∧
    strContains (strLower "") "tool" = false ∧
    (execute mBval (ExecCtx.mk (some "") true)).1 =
      ActionResult.ask "Do you require tool access?" "conditional" false 3 3 ∧
    (execute mBval (ExecCtx.mk (some "") true)).1.isComplete = false ∧
    Turn.mk "assistant" "Do you require tool access?" (some "tool_requirements") ∈
      (execute mBval (ExecCtx.mk (some "") true)).2.turns := by
  have h1 : strContains (strLower "i use tool x") "tool" = true := by decide
  have hC : (execute mBval (ExecCtx.mk (some "") true)).1 =
      ActionResult.ask "Do you require tool access?" "conditional" false 3 3 := by
    simp [execute, afterReply, mBval, QUESTIONS, pyGet, inputTruthy,
      Memory.update_state, Memory.store_interaction, List.lookup, h1]
  refine ⟨by simp [execA, execB], by decide, by decide, by decide, by decide, hC, ?_, ?_⟩
  · rw [hC]; rfl
  · have h2 : Turn.mk "assistant" "Do you require tool access?" (some "tool_requirements") ∈
        (execute mBval (ExecCtx.mk (some "") true)).2.turns := by
      simp [execute, afterReply, mBval, QUESTIONS, pyGet, inputTruthy,
        Memory.update_state, Memory.store_interaction, List.lookup, h1]
    exact h2

/-- Claim C4 (confirmed): for every session whose step equals the catalog
length (3), every subsequent `execute` call — with or without user input —
returns action `complete` and leaves the stored step unchanged at the
catalog length. -/
theorem claim_c4 (m : Memory) (ctx : ExecCtx) (h3 : m.state.step = (QUESTIONS.length : ℤ)) :
    (execute m ctx).1.isComplete = true ∧
    (execute m ctx).2.state.step = (QUESTIONS.length : ℤ) := by
  rw [qlen_int] at h3 ⊢
  rw [exec_step3 m ctx h3]
  exact ⟨rfl, by rw [afterReply_step, h3]⟩

/-- Witness for C4 at a concrete terminal-step session. -/
theorem claim_c4_witness :
    mW4.state.step = (QUESTIONS.length : ℤ) ∧
    ((execute mW4 ctxT).1.isComplete = true ∧
      (execute mW4 ctxT).2.state.step = (QUESTIONS.length : ℤ)) :=
  ⟨rfl, claim_c4 mW4 ctxT rfl⟩

/-- Claim C5 (confirmed): every session reachable from the zero state by any
sequence of `execute` calls with any inputs satisfies
`0 ≤ step ≤ len(catalog)` after every call. -/
theorem claim_c5 (m : Memory) (h : Reachable m) :
    0 ≤ m.state.step ∧ m.state.step ≤ (QUESTIONS.length : ℤ) := by
  have hI := reach_inv h
  rw [qlen_int]
  exact ⟨hI.1, hI.2.1⟩

/-- Witness for C5 at the store reached by one `execute` call on the zero
state. -/
theorem claim_c5_witness :
    Reachable (execute memInit ctxT).2 ∧
    (0 ≤ (execute memInit ctxT).2.state.step ∧
      (execute memInit ctxT).2.state.step ≤ (QUESTIONS.length : ℤ)) :=
  ⟨Reachable.step ctxT Reachable.init,
   claim_c5 _ (Reachable.step ctxT Reachable.init)⟩

/-- Claim C3 as amended (corrected): for every filter state, a frame whose
decode fails is reported with confidence exactly 0.0 and `person_present`
false, without raising, and the debounce filter is left exactly unchanged —
the failed frame is skipped, NOT treated as if 0.0 had been fed to the
filter (see `claim_c3_counterexample`). -/
theorem claim_c3 (f : TemporalFilter) (path e : String) :
    (visionExecute f (Except.ok path) (fun _ => Except.error e)).1.confidence = 0 ∧
    (visionExecute f (Except.ok path) (fun _ => Except.error e)).1.person_present = false ∧
    (visionExecute f (Except.ok path) (fun _ => Except.error e)).1.error = some e ∧
    (visionExecute f (Except.ok path) (fun _ => Except.error e)).2 = f :=
  ⟨rfl, rfl, rfl, rfl⟩

/-- Counterexample to C3's parenthetical "as if 0.0 were fed to the debounce
filter": with window [true, true], a decode-failing frame leaves the window
unchanged, whereas feeding 0.0 would push `false`; the two filter states then
disagree on the very next high-confidence frame (true vs false). -/
theorem claim_c3_counterexample :
    (visionExecute (TemporalFilter.mk 85 3 [true, true]) (Except.ok "frame.jpg")
        (fun _ => Except.error "Failed to read image")).2
      = TemporalFilter.mk 85 3 [true, true] ∧
    ((TemporalFilter.mk 85 3 [true, true]).update 0).2
      = TemporalFilter.mk 85 3 [true, true, false] ∧
    (((visionExecute (TemporalFilter.mk 85 3 [true, true]) (Except.ok "frame.jpg")
        (fun _ => Except.error "Failed to read image")).2).update 90).1 = true ∧
    ((((TemporalFilter.mk 85 3 [true, true]).update 0).2).update 90).1 = false :=
  ⟨rfl, by decide, by decide, by decide⟩

/-- Claim C10 (confirmed): on a capture failure and on an image-read failure,
`VisionSkill.execute` returns `person_present` false and confidence 0.0, and
the temporal filter — hence the debounce window — is returned exactly
unchanged: the failed frame is not pushed into the window. -/
theorem claim_c10 (f : TemporalFilter) (e e2 p : String)
    (detect : String → Except String ℚ) :
    visionExecute f (Except.error e) detect =
      (VisionResult.mk (some e) false 0 none, f) ∧
    visionExecute f (Except.ok p) (fun _ => Except.error e2) =
      (VisionResult.mk (some e2) false 0 (some p), f) :=
  ⟨rfl, rfl⟩

/-- Counterexample to claim C7 as stated: on the single-candidate tensor
[[0,0,0,0,-1,-2]] the predicted class is 0 (person) with score -1, the
maximum among person-predicted candidates, yet `decodeRaw` returns 0.0
because `max_confidence` starts at 0.0. -/
theorem claim_c7_counterexample :
    decodeRaw [[0, 0, 0, 0, -1, -2]] = 0 ∧
    decodeRawSpec [[0, 0, 0, 0, -1, -2]] = -1 ∧
    decodeRaw [[0, 0, 0, 0, -1, -2]] ≠ decodeRawSpec [[0, 0, 0, 0, -1, -2]] :=
  ⟨by decide, by decide, by decide⟩

/-- Claim C7 as amended (corrected): for every raw tensor whose per-class
scores (entries from index 4 on) are nonnegative, decoding ignores the first
4 values of each candidate, takes the argmax over the remaining scores as the
predicted class, and returns the maximum score among candidates predicting
the person class (0), with 0.0 when no candidate predicts it
(`decodeRawSpec` is that specification).  The nonnegativity restriction is
forced by `claim_c7_counterexample`: the loop accumulates from 0.0, so a
negative person-class maximum is reported as 0.0. -/
theorem claim_c7 (dets : List (List ℚ))
    (h : ∀ det ∈ dets, ∀ x ∈ det.drop 4, 0 ≤ x) :
    decodeRaw dets = decodeRawSpec dets :=
  decodeRaw_nonneg_spec dets h

/-- Witness for the amended C7 on a two-candidate tensor where only the first
candidate predicts the person class. -/
theorem claim_c7_witness :
    (∀ det ∈ [[(1 : ℚ), 2, 3, 4, 9, 1], [0, 0, 0, 0, 2, 8]],
      ∀ x ∈ det.drop 4, 0 ≤ x) ∧
    decodeRaw [[(1 : ℚ), 2, 3, 4, 9, 1], [0, 0, 0, 0, 2, 8]]
      = decodeRawSpec [[(1 : ℚ), 2, 3, 4, 9, 1], [0, 0, 0, 0, 2, 8]] ∧
    decodeRaw [[(1 : ℚ), 2, 3, 4, 9, 1], [0, 0, 0, 0, 2, 8]] = 9 :=
  ⟨by decide, claim_c7 _ (by decide), by decide⟩

/-- Claim C8 (confirmed): for every `update_state` call, each provided field
(step, question, awaiting) overwrites the stored value, a provided context
patch is merged key-by-key with last-write-wins per key (keys outside the
patch keep their values), and every omitted field keeps its previous stored
value. -/
theorem claim_c8 (m : Memory) (so : Option ℤ) (qo : Option String) (ao : Option Bool)
    (po : Option (List (String × String))) :
    (m.update_state so qo ao po).state.step = so.getD m.state.step ∧
    (m.update_state so qo ao po).state.last_question =
      (match qo with | some q => some q | none => m.state.last_question) ∧
    (m.update_state so qo ao po).state.awaiting = ao.getD m.state.awaiting ∧
    ∀ k, List.lookup k (m.update_state so qo ao po).state.context =
      (match po with
       | none => List.lookup k m.state.context
       | some patch =>
         match lastVal patch k with
         | some v => some v
         | none => List.lookup k m.state.context) := by
  refine ⟨?_, ?_, ?_, ?_⟩ <;>
  · unfold Memory.update_state
    cases so <;> cases qo <;> cases ao <;> cases po <;>
      first
      | rfl
      | (intro k; simp [lookup_dictUpdate])

/-- Claim C1 (confirmed): for every threshold `t`, window size `consecutive ≥ 1`
and finite confidence sequence fed in order to `DebounceFilter.update`
(`TemporalFilter.update`), the i-th call returns true iff at least
`consecutive` updates have occurred and each of the last `consecutive`
confidences (including the current one) is strictly greater than `t`; calls
before the window is full return false.  The right-hand side names exactly
the last `min (i+1) c` confidences via take/drop. -/
theorem claim_c1 (t : ℚ) (c : ℕ) (cs : List ℚ) (i : ℕ) (hc : 1 ≤ c) (hi : i < cs.length) :
    ((runFilter (TemporalFilter.mk t c []) cs).getD i false = true ↔
      (c ≤ i + 1 ∧ ∀ x ∈ (cs.take (i + 1)).drop (i + 1 - c), t < x)) := by
  rw [runFilter_getD t c cs [] i (by simp) hi]
  simp only [List.nil_append, List.length_nil, Nat.zero_add]
  have hlen : (cs.take (i + 1)).length = i + 1 := by rw [List.length_take]; omega
  have h1 : lastN c ((cs.take (i + 1)).map (fun x => decide (t < x)))
      = ((cs.take (i + 1)).drop (i + 1 - c)).map (fun x => decide (t < x)) := by
    rw [lastN_map]
    unfold lastN
    rw [hlen]
  rw [h1]
  refine and_congr Iff.rfl ?_
  constructor
  · intro hall y hy
    have := hall (decide (t < y)) (List.mem_map_of_mem _ hy)
    exact of_decide_eq_true this
  · intro hall b hb
    obtain ⟨y, hy, rfl⟩ := List.mem_map.mp hb
    exact decide_eq_true (hall y hy)

/-- Witness for C1 at the spec's own example (scaled by 100 to stay integral):
threshold 85, window 3, sequence [90, 90, 50, 90, 90, 90]; the sixth frame is
the first confirmed one. -/
theorem claim_c1_witness :
    ((1 : ℕ) ≤ 3 ∧ 5 < [(90 : ℚ), 90, 50, 90, 90, 90].length) ∧
    ((runFilter (TemporalFilter.mk 85 3 [])
        [(90 : ℚ), 90, 50, 90, 90, 90]).getD 5 false = true ↔
      (3 ≤ 5 + 1 ∧ ∀ x ∈ (([(90 : ℚ), 90, 50, 90, 90, 90].take (5 + 1)).drop
        (5 + 1 - 3)), (85 : ℚ) < x)) ∧
    (runFilter (TemporalFilter.mk 85 3 [])
        [(90 : ℚ), 90, 50, 90, 90, 90]) = [false, false, false, false, false, true] :=
  ⟨⟨by decide, by decide⟩, claim_c1 85 3 _ 5 (by decide) (by decide), by decide⟩

lemma filter_user_nil (dt : List Turn) (h : ∀ t ∈ dt, t.role = "user") :
    dt.filter (fun t => t.role == "assistant") = [] := by
  rw [List.filter_eq_nil_iff]
  intro t ht
  rw [h t ht]
  decide

lemma filter_false_nil (du : List StateUpdate) (h : ∀ u ∈ du, u.awaiting = some false) :
    du.filter (fun u => u.awaiting == some true) = [] := by
  rw [List.filter_eq_nil_iff]
  intro u hu
  rw [h u hu]
  decide

/-- Claim C6 (confirmed): every `execute` call on a reachable session that
returns action `ask` appends exactly one assistant turn whose content equals
the returned question text and whose `question_id` metadata equals the asked
question's id, and performs exactly one state update that sets `awaiting`
true — that update stores step `step + 1`, one greater than the session's
step, which is also the returned 1-based step number and the final stored
step. -/
theorem claim_c6 (m : Memory) (ctx : ExecCtx) (qt ty : String) (rq : Bool) (st : ℤ)
    (tot : ℕ) (hr : Reachable m)
    (h : (execute m ctx).1 = ActionResult.ask qt ty rq st tot) :
    ∃ q ∈ QUESTIONS, qt = q.text ∧ st = m.state.step + 1 ∧
      (∃ dt, (execute m ctx).2.turns = m.turns ++ dt ∧
        dt.filter (fun t => t.role == "assistant") = [Turn.mk "assistant" q.text (some q.id)]) ∧
      (∃ du, (execute m ctx).2.updates = m.updates ++ du ∧
        du.filter (fun u => u.awaiting == some true)
          = [StateUpdate.mk (some (m.state.step + 1)) (some q.text) (some true) none]) ∧
      (execute m ctx).2.state.step = m.state.step + 1 := by
  have hI := reach_inv hr
  obtain ⟨hI1, hI2, hI3⟩ := hI
  cases hE : execute m ctx with
  | mk r mem2 =>
    have hres : r = ActionResult.ask qt ty rq st tot := by rw [hE] at h; exact h
    subst hres
    rw [execute.eq_def] at hE
    dsimp only at hE
    have hst := afterReply_step m ctx
    split at hE
    · exact absurd (congrArg Prod.fst hE).symm (by simp)
    · split at hE
      · exact absurd (congrArg Prod.fst hE).symm (by simp)
      · split at hE
        · exact absurd (congrArg Prod.fst hE).symm (by simp)
        · rename_i hge
          rw [qlen_int, hst] at hge
          split at hE
          · exact absurd (congrArg Prod.fst hE).symm (by simp)
          · rename_i q heq
            split at hE
            · -- conditional skip: the recursion lands on the terminal step and
              -- returns `complete`, contradicting an `ask` result
              rename_i hcond
              have hs2 : m.state.step = 2 := by
                rcases (by omega : m.state.step = 0 ∨ m.state.step = 1 ∨ m.state.step = 2)
                  with h0 | h1 | h2
                · rw [hst, h0] at heq
                  have : q = QUESTIONS.get ⟨0, by simp [QUESTIONS]⟩ := by
                    simp [pyGet, QUESTIONS] at heq
                    simp [QUESTIONS, heq.symm]
                  rw [this] at hcond
                  simp [QUESTIONS] at hcond
                · rw [hst, h1] at heq
                  have : q = QUESTIONS.get ⟨1, by simp [QUESTIONS]⟩ := by
                    simp [pyGet, QUESTIONS] at heq
                    simp [QUESTIONS, heq.symm]
                  rw [this] at hcond
                  simp [QUESTIONS] at hcond
                · exact h2
              have hs3 : ((afterReply m ctx).update_state
                  (some ((afterReply m ctx).state.step + 1)) none (some false) none).state.step
                    = 3 := by
                rw [update_state_step, hst, hs2]
                norm_num
              rw [exec_step3 _ ctx hs3] at hE
              exact absurd (congrArg Prod.fst hE).symm (by simp)
            · -- the ask branch itself
              have h1 : ActionResult.ask q.text q.qtype q.required
                  ((afterReply m ctx).state.step + 1) QUESTIONS.length
                    = ActionResult.ask qt ty rq st tot := congrArg Prod.fst hE
              have h2 : ((afterReply m ctx).store_interaction "assistant" q.text
                  (some q.id)).update_state (some ((afterReply m ctx).state.step + 1))
                    (some q.text) (some true) none = mem2 := congrArg Prod.snd hE
              simp only [ActionResult.ask.injEq] at h1
              obtain ⟨hqt, hty, hrq, hst2, htot⟩ := h1
              obtain ⟨dt0, du0, hdt0, hdt0u, hdu0, hdu0f⟩ := afterReply_effects m ctx
              refine ⟨q, pyGet_mem heq, hqt.symm, ?_, ?_, ?_, ?_⟩
              · rw [← hst2, hst]
              · refine ⟨dt0 ++ [Turn.mk "assistant" q.text (some q.id)], ?_, ?_⟩
                · rw [← h2, update_state_turns, store_turns, hdt0, List.append_assoc]
                · rw [List.filter_append, filter_user_nil dt0 hdt0u]
                  simp
              · refine ⟨du0 ++ [StateUpdate.mk (some (m.state.step + 1)) (some q.text)
                  (some true) none], ?_, ?_⟩
                · rw [← h2, update_state_updates, store_updates, hdu0, List.append_assoc,
                    hst]
                · rw [List.filter_append, filter_false_nil du0 hdu0f]
                  simp
              · rw [← h2, update_state_step, hst]

/-- Witness for C6 at the first call on the zero state, which asks question 1. -/
theorem claim_c6_witness :
    Reachable memInit ∧
    (execute memInit ctxT).1
      = ActionResult.ask "What task are you performing?" "open_ended" true 1 3 ∧
    (∃ q ∈ QUESTIONS, "What task are you performing?" = q.text ∧
      (1 : ℤ) = memInit.state.step + 1 ∧
      (∃ dt, (execute memInit ctxT).2.turns = memInit.turns ++ dt ∧
        dt.filter (fun t => t.role == "assistant")
          = [Turn.mk "assistant" q.text (some q.id)]) ∧
      (∃ du, (execute memInit ctxT).2.updates = memInit.updates ++ du ∧
        du.filter (fun u => u.awaiting == some true)
          = [StateUpdate.mk (some (memInit.state.step + 1)) (some q.text) (some true) none]) ∧
      (execute memInit ctxT).2.state.step = memInit.state.step + 1) :=
  ⟨Reachable.init, by rw [execA],
   claim_c6 memInit ctxT "What task are you performing?" "open_ended" true 1 3
     Reachable.init (by rw [execA])⟩

/-- Claim C9 (confirmed): for every reachable session with `awaiting_reply`
true, calling `execute` with `user_input` absent or equal to the empty
string records no user turn and merges no `last_reply`; the engine proceeds
as if no reply were pending, returning `complete` or asking the next catalog
question with step advanced by one; and an empty-string input is
indistinguishable from an absent one. -/
theorem claim_c9 (m : Memory) (ctx : ExecCtx) (hr : Reachable m)
    (haw : m.state.awaiting = true)
    (hin : ctx.user_input = none ∨ ctx.user_input = some "") :
    (∃ dt, (execute m ctx).2.turns = m.turns ++ dt ∧ ∀ t ∈ dt, t.role ≠ "user") ∧
    (∃ du, (execute m ctx).2.updates = m.updates ++ du ∧ ∀ u ∈ du, u.contextPatch = none) ∧
    ((execute m ctx).1.isComplete = true ∨
      ((execute m ctx).1.isAsk = true ∧
        (∃ q ty rq, (execute m ctx).1
          = ActionResult.ask q ty rq (m.state.step + 1) QUESTIONS.length) ∧
        (execute m ctx).2.state.step = m.state.step + 1)) ∧
    execute m (ExecCtx.mk (some "") ctx.trigger_conversation)
      = execute m (ExecCtx.mk none ctx.trigger_conversation) := by
  have hf : inputTruthy ctx.user_input = false := by
    rcases hin with h | h <;> simp [h, inputTruthy]
  obtain ⟨hI1, hI2, hI3⟩ := reach_inv hr
  have hs1 : 1 ≤ m.state.step := hI3 haw
  refine ⟨?_, ?_, ?_, ?_⟩
  rotate_right
  · exact exec_falsy ((3 - m.state.step).toNat) m
      (ExecCtx.mk (some "") ctx.trigger_conversation) rfl rfl
  all_goals
    cases hE : execute m ctx with
    | mk r mem2 =>
      rw [execute.eq_def] at hE
      dsimp only at hE
      rw [afterReply_falsy m ctx hf] at hE
      split at hE
      · rename_i hc0
        exact absurd hc0.2 (by omega)
      · split at hE
        · rename_i hc1
          rw [hf] at hc1
          simp at hc1
        · split at hE
          · obtain ⟨hr1, hr2⟩ := Prod.mk.injEq .. |>.mp hE
            subst hr2
            first
            | exact ⟨[], by simp, by simp⟩
            | exact Or.inl (by rw [← hr1]; rfl)
          · rename_i hge
            rw [qlen_int] at hge
            split at hE
            · rename_i heq
              rcases (by omega : m.state.step = 1 ∨ m.state.step = 2) with h1 | h1 <;>
                (rw [h1] at heq; simp [pyGet, QUESTIONS] at heq)
            · rename_i q heq
              split at hE
              · -- conditional skip at step 2; the recursive call completes
                rename_i hcond
                have hs2 : m.state.step = 2 := by
                  rcases (by omega : m.state.step = 1 ∨ m.state.step = 2) with h1 | h1
                  · rw [h1] at heq
                    have hq : q = QUESTIONS.get ⟨1, by simp [QUESTIONS]⟩ := by
                      simp [pyGet, QUESTIONS] at heq
                      simp [QUESTIONS, heq.symm]
                    rw [hq] at hcond
                    simp [QUESTIONS] at hcond
                  · exact h1
                have hs3 : (m.update_state (some (m.state.step + 1)) none
                    (some false) none).state.step = 3 := by
                  rw [update_state_step, hs2]
                  norm_num
                rw [exec_step3 _ ctx hs3] at hE
                rw [afterReply_falsy _ ctx hf] at hE
                obtain ⟨hr1, hr2⟩ := Prod.mk.injEq .. |>.mp hE
                subst hr2
                first
                | exact ⟨[], by rw [← update_state_turns m (some (m.state.step + 1)) none
                    (some false) none, List.append_nil], by simp⟩
                | exact ⟨[StateUpdate.mk (some (m.state.step + 1)) none (some false) none],
                    by rw [update_state_updates], by simp⟩
                | exact Or.inl (by rw [← hr1]; rfl)
              · -- a question is asked
                obtain ⟨hr1, hr2⟩ := Prod.mk.injEq .. |>.mp hE
                subst hr2
                first
                | exact ⟨[Turn.mk "assistant" q.text (some q.id)],
                    by rw [update_state_turns, store_turns], by simp⟩
                | exact ⟨[StateUpdate.mk (some (m.state.step + 1)) (some q.text)
                      (some true) none],
                    by rw [update_state_updates, store_updates], by simp⟩
                | exact Or.inr ⟨by rw [← hr1]; rfl,
                    ⟨q.text, q.qtype, q.required, by rw [← hr1]⟩,
                    by rw [update_state_step]⟩

/-- Witness for C9 at the reachable session with question 1 pending and no
input supplied. -/
theorem claim_c9_witness :
    (Reachable mAval ∧ mAval.state.awaiting = true ∧
      (ctxT.user_input = none ∨ ctxT.user_input = some "")) ∧
    ((∃ dt, (execute mAval ctxT).2.turns = mAval.turns ++ dt ∧ ∀ t ∈ dt, t.role ≠ "user") ∧
      (∃ du, (execute mAval ctxT).2.updates = mAval.updates ++ du ∧
        ∀ u ∈ du, u.contextPatch = none) ∧
      ((execute mAval ctxT).1.isComplete = true ∨
        ((execute mAval ctxT).1.isAsk = true ∧
          (∃ q ty rq, (execute mAval ctxT).1
            = ActionResult.ask q ty rq (mAval.state.step + 1) QUESTIONS.length) ∧
          (execute mAval ctxT).2.state.step = mAval.state.step + 1)) ∧
      execute mAval (ExecCtx.mk (some "") ctxT.trigger_conversation)
        = execute mAval (ExecCtx.mk none ctxT.trigger_conversation)) := by
  have hr : Reachable mAval := by
    have h := Reachable.step ctxT Reachable.init
    rw [execA] at h
    exact h
  exact ⟨⟨hr, rfl, Or.inl rfl⟩, claim_c9 mAval ctxT hr rfl (Or.inl rfl)⟩
